import Mathlib

/-!
Verification of the date-range projection and calendar synchronization logic of
the obsidian-calendar-bases plugin.

The development shallowly embeds the date arithmetic of the source code.  The
source manipulates JavaScript `Date` objects through their local calendar
components (`getFullYear`, `getMonth`, `getDate`); we model such a value as an
explicit triple of year (an integer), zero-based month, and one-based day,
together with an abstract time-of-day component for values that may carry a
time.  JavaScript `Date` objects always hold normalized (valid) calendar
components, which appears below as `validDate` hypotheses.  Day stepping
(`setDate(getDate() + 1)` / `setDate(getDate() - 1)`) is calendar-day
arithmetic on those components, embedded as `nextDay` / `prevDay`.
-/

/-- A calendar date as exposed by the JavaScript `Date` accessors used in the
source: `y` is `getFullYear()`, `m` is the zero-based `getMonth()`, and `d`
is the one-based `getDate()`. -/
structure CDate where
  y : Int
  m : Nat
  d : Nat
deriving DecidableEq, Repr

/-- Gregorian leap-year rule, as implemented by the JavaScript `Date`
normalization that `new Date(year, month + 1, 0).getDate()` relies on. -/
def isLeap (y : Int) : Bool :=
  (y % 4 == 0 && y % 100 != 0) || y % 400 == 0

/-- Number of days in the given zero-based month of the given year; this is
what `new Date(year, month + 1, 0).getDate()` computes in the source. -/
def daysInMonth (y : Int) (m : Nat) : Nat :=
  if m = 1 then (if isLeap y then 29 else 28)
  else if m = 3 ∨ m = 5 ∨ m = 8 ∨ m = 10 then 30
  else 31

theorem daysInMonth_bounds (y : Int) (m : Nat) :
    28 ≤ daysInMonth y m ∧ daysInMonth y m ≤ 31 := by
  unfold daysInMonth
  split_ifs <;> omega

/-- Strict order on calendar dates.  Two date-only JavaScript `Date` values
(at the same time of day) compare by timestamp exactly as their calendar
components compare lexicographically, which is how `end < start` and
`iter <= end` behave in the source after its date-only normalization. -/
def dlt (a b : CDate) : Prop :=
  a.y < b.y ∨ (a.y = b.y ∧ (a.m < b.m ∨ (a.m = b.m ∧ a.d < b.d)))

/-- Non-strict lexicographic order on calendar dates. -/
def dle (a b : CDate) : Prop :=
  a.y < b.y ∨ (a.y = b.y ∧ (a.m < b.m ∨ (a.m = b.m ∧ a.d ≤ b.d)))

instance (a b : CDate) : Decidable (dlt a b) := by unfold dlt; infer_instance
instance (a b : CDate) : Decidable (dle a b) := by unfold dle; infer_instance

/-- A triple of calendar components that an actual JavaScript `Date` can
hold: the month is in range and the day exists in that month. -/
def validDate (c : CDate) : Prop :=
  c.m ≤ 11 ∧ 1 ≤ c.d ∧ c.d ≤ daysInMonth c.y c.m

instance (c : CDate) : Decidable (validDate c) := by unfold validDate; infer_instance

theorem cdate_eq_iff (a b : CDate) :
    a = b ↔ (a.y = b.y ∧ a.m = b.m ∧ a.d = b.d) := by
  cases a; cases b; simp [CDate.mk.injEq]

theorem dle_refl (a : CDate) : dle a a := by unfold dle; omega

theorem dle_trans {a b c : CDate} (h1 : dle a b) (h2 : dle b c) : dle a c := by
  unfold dle at *; omega

theorem dlt_of_dle_of_dlt {a b c : CDate} (h1 : dle a b) (h2 : dlt b c) : dlt a c := by
  unfold dle at h1; unfold dlt at *; omega

theorem dle_of_dlt {a b : CDate} (h : dlt a b) : dle a b := by
  unfold dlt at h; unfold dle; omega

theorem dle_antisymm {a b : CDate} (h1 : dle a b) (h2 : dle b a) : a = b := by
  rw [cdate_eq_iff]; unfold dle at *; omega

theorem dlt_of_dle_of_ne {a b : CDate} (h1 : dle a b) (h2 : a ≠ b) : dlt a b := by
  rw [ne_eq, cdate_eq_iff] at h2; unfold dle at h1; unfold dlt; omega

theorem not_dle_of_dlt {a b : CDate} (h : dlt b a) : ¬ dle a b := by
  unfold dlt at h; unfold dle; omega

theorem dle_or_dlt (a b : CDate) : dle a b ∨ dlt b a := by
  unfold dle; unfold dlt; omega

/-- Calendar-day successor: what `iter.setDate(iter.getDate() + 1)` does to a
`Date` holding valid calendar components. -/
def nextDay (c : CDate) : CDate :=
  if c.d < daysInMonth c.y c.m then ⟨c.y, c.m, c.d + 1⟩
  else if c.m < 11 then ⟨c.y, c.m + 1, 1⟩
  else ⟨c.y + 1, 0, 1⟩

/-- Calendar-day predecessor: what `setDate(getDate() - 1)` does to a `Date`
holding valid calendar components. -/
def prevDay (c : CDate) : CDate :=
  if 1 < c.d then ⟨c.y, c.m, c.d - 1⟩
  else if 0 < c.m then ⟨c.y, c.m - 1, daysInMonth c.y (c.m - 1)⟩
  else ⟨c.y - 1, 11, daysInMonth (c.y - 1) 11⟩

theorem validDate_nextDay {c : CDate} (h : validDate c) : validDate (nextDay c) := by
  have hb0 := daysInMonth_bounds c.y c.m
  have hb1 := daysInMonth_bounds c.y (c.m + 1)
  have hb2 := daysInMonth_bounds (c.y + 1) 0
  unfold validDate at *
  unfold nextDay
  split_ifs with h1 h2 <;> dsimp only <;> omega

theorem dlt_nextDay (c : CDate) : dlt c (nextDay c) := by
  unfold nextDay
  split_ifs with h1 h2 <;> unfold dlt <;> dsimp only <;> omega

/-- The calendar-day successor is a genuine successor on valid dates: no
valid date lies strictly between a valid date and its `nextDay`. -/
theorem nextDay_le_of_dlt {c k : CDate} (hc : validDate c) (hk : validDate k)
    (h : dlt c k) : dle (nextDay c) k := by
  obtain ⟨cy, cm, cd⟩ := c
  obtain ⟨ky, km, kd⟩ := k
  unfold validDate at hc hk
  unfold dlt at h
  unfold nextDay
  dsimp only at *
  rcases h with h | ⟨hy, h⟩
  · split_ifs <;> unfold dle <;> dsimp only <;> omega
  · subst hy
    rcases h with h | ⟨hm, h⟩
    · split_ifs <;> unfold dle <;> dsimp only <;> omega
    · subst hm
      split_ifs <;> unfold dle <;> dsimp only <;> omega

theorem prevDay_nextDay {c : CDate} (h : validDate c) : prevDay (nextDay c) = c := by
  obtain ⟨cy, cm, cd⟩ := c
  have hb := daysInMonth_bounds cy cm
  unfold validDate at h
  dsimp only at *
  unfold nextDay
  try dsimp only
  split_ifs with h1 h2
  · unfold prevDay
    try dsimp only
    split_ifs <;> simp only [CDate.mk.injEq, true_and, and_true] <;> omega
  · unfold prevDay
    try dsimp only
    have hne : ¬ (1 : Nat) < 1 := by omega
    rw [if_neg hne, if_pos (by omega : 0 < cm + 1)]
    simp only [CDate.mk.injEq, Nat.add_sub_cancel, true_and, and_true]
    omega
  · have hm : cm = 11 := by omega
    subst hm
    unfold prevDay
    try dsimp only
    have hne : ¬ (1 : Nat) < 1 := by omega
    have hne2 : ¬ (0 : Nat) < 0 := by omega
    rw [if_neg hne, if_neg hne2]
    simp only [CDate.mk.injEq, Int.add_sub_cancel, true_and, and_true]
    omega

/-- Termination measure for the day walk: strictly decreases along `nextDay`
while the loop guard `iter <= end` holds. -/
def walkMeasure (iter e : CDate) : Nat :=
  (e.y + 1 - iter.y).toNat * 372 + (11 - iter.m) * 31 + (31 - iter.d)

theorem walkMeasure_decreases {iter e : CDate} (h : dle iter e) :
    walkMeasure (nextDay iter) e < walkMeasure iter e := by
  have hb := daysInMonth_bounds iter.y iter.m
  have hy : iter.y ≤ e.y := by unfold dle at h; omega
  unfold walkMeasure nextDay
  split_ifs with h1 h2 <;> dsimp only <;> omega

/-- The day iteration of the projector in `LinearReactView`:

    const iter = new Date(start);
    while (iter <= end) { ...insert...; iter.setDate(iter.getDate() + 1); }

returns the exact list of calendar days visited, in visit order. -/
def walkDays (iter e : CDate) : List CDate :=
  if _h : dle iter e then iter :: walkDays (nextDay iter) e else []
termination_by walkMeasure iter e
decreasing_by exact walkMeasure_decreases _h

theorem walkDays_eq (iter e : CDate) :
    walkDays iter e = if dle iter e then iter :: walkDays (nextDay iter) e else [] := by
  rw [walkDays]
  rfl

theorem mem_walkDays_aux (e k : CDate) :
    ∀ n : Nat, ∀ s : CDate, walkMeasure s e ≤ n → validDate s →
      (k ∈ walkDays s e ↔ (validDate k ∧ dle s k ∧ dle k e)) := by
  intro n
  induction n with
  | zero =>
    intro s hn hv
    rw [walkDays_eq]
    have hnot : ¬ dle s e := by
      unfold walkMeasure at hn
      unfold dle
      omega
    rw [if_neg hnot]
    simp only [List.not_mem_nil, false_iff]
    rintro ⟨_, h1, h2⟩
    exact hnot (dle_trans h1 h2)
  | succ n ih =>
    intro s hn hv
    rw [walkDays_eq]
    by_cases hse : dle s e
    · rw [if_pos hse]
      have hm : walkMeasure (nextDay s) e ≤ n := by
        have := walkMeasure_decreases hse
        omega
      simp only [List.mem_cons]
      constructor
      · rintro (rfl | hk)
        · exact ⟨hv, dle_refl k, hse⟩
        · have hk2 := (ih (nextDay s) hm (validDate_nextDay hv)).mp hk
          exact ⟨hk2.1, dle_trans (dle_of_dlt (dlt_nextDay s)) hk2.2.1, hk2.2.2⟩
      · rintro ⟨hkv, hsk, hke⟩
        by_cases heq : k = s
        · exact Or.inl heq
        · refine Or.inr ((ih (nextDay s) hm (validDate_nextDay hv)).mpr ⟨hkv, ?_, hke⟩)
          exact nextDay_le_of_dlt hv hkv (dlt_of_dle_of_ne hsk (Ne.symm heq))
    · rw [if_neg hse]
      simp only [List.not_mem_nil, false_iff]
      rintro ⟨_, h1, h2⟩
      exact hse (dle_trans h1 h2)

/-- Membership in the day walk is exactly: a valid calendar day between start
and end inclusive (in the lexicographic calendar order). -/
theorem mem_walkDays {s e : CDate} (hs : validDate s) (k : CDate) :
    k ∈ walkDays s e ↔ (validDate k ∧ dle s k ∧ dle k e) :=
  mem_walkDays_aux e k (walkMeasure s e) s le_rfl hs

/-- A JavaScript `Date` value: normalized calendar components plus an
abstract time-of-day payload (the source drops the latter wherever it
normalizes via `new Date(getFullYear(), getMonth(), getDate())`). -/
structure JSDate where
  date : CDate
  timeMs : Nat
deriving DecidableEq, Repr

/-- Date-only normalization `new Date(d.getFullYear(), d.getMonth(), d.getDate())`
keeps exactly the calendar components. -/
def dateOnly (x : JSDate) : CDate := x.date

/-- The `LinearEntry` record of the linear view: an opaque record together
with its extracted start date and optional end date. -/
structure LinearEntry (α : Type) where
  entry : α
  startDate : JSDate
  endDate : Option JSDate
deriving DecidableEq

/-- Date-only start used by the projector loop. -/
def entryStartC {α : Type} (e : LinearEntry α) : CDate := dateOnly e.startDate

/-- Date-only end used by the projector loop; `new Date(start)` when the
entry has no end date. -/
def entryEndC {α : Type} (e : LinearEntry α) : CDate :=
  match e.endDate with
  | some x => dateOnly x
  | none => entryStartC e

/-- An entry is inserted into the day-map iff its normalized range is not
reversed; the projector body hits `continue` otherwise. -/
def contributes {α : Type} (e : LinearEntry α) : Prop :=
  ¬ dlt (entryEndC e) (entryStartC e)

instance {α : Type} (e : LinearEntry α) : Decidable (contributes e) := by
  unfold contributes; infer_instance

/-- State threaded through the `entriesByDate` loop of `LinearReactView`:
the day-keyed occupant map plus the running `minYear` / `maxYear`.  The
source keys the map by the string `dateKey(y, m, d)`; as that key is built
injectively from the calendar components of the visited (valid) day, we key
by the component triple directly. -/
structure ProjState (α : Type) where
  map : CDate → List (LinearEntry α)
  minYear : Option Int
  maxYear : Option Int

/-- `if (!map.has(key)) map.set(key, []); map.get(key)?.push(entry)` -/
def insertOccupant {α : Type} (m : CDate → List (LinearEntry α)) (k : CDate)
    (x : LinearEntry α) : CDate → List (LinearEntry α) :=
  fun k2 => if k2 = k then m k2 ++ [x] else m k2

/-- Running-minimum update; both `minYear === null ? y : Math.min(minYear, y)`
and `Math.min(minYear ?? y, y)` in the source compute this. -/
def stepMin (acc : Option Int) (y : Int) : Option Int := some (min (acc.getD y) y)

/-- Running-maximum update, symmetric to `stepMin`. -/
def stepMax (acc : Option Int) (y : Int) : Option Int := some (max (acc.getD y) y)

/-- One iteration of the `for (const entry of entries)` loop of the
`entriesByDate` `useMemo` in `LinearReactView`. -/
def processEntry {α : Type} (st : ProjState α) (e : LinearEntry α) :
    ProjState α :=
  let s := entryStartC e
  let en := entryEndC e
  if dlt en s then st
  else
    let map2 := (walkDays s en).foldl (fun m k => insertOccupant m k e) st.map
    let mn1 := stepMin st.minYear e.startDate.date.y
    let mx1 := stepMax st.maxYear e.startDate.date.y
    match e.endDate with
    | some ed => ⟨map2, stepMin mn1 ed.date.y, stepMax mx1 ed.date.y⟩
    | none => ⟨map2, mn1, mx1⟩

/-- The whole `entriesByDate` pass: fold the loop body over the entries,
starting from an empty map and null year bounds. -/
def projectEntries {α : Type} (entries : List (LinearEntry α)) : ProjState α :=
  entries.foldl processEntry ⟨fun _ => [], none, none⟩

/-- `for (let y = resolvedMin; y <= resolvedMax; y++) yearList.push(y)` -/
def intRange (lo hi : Int) : List Int :=
  (List.range (hi + 1 - lo).toNat).map (fun (i : Nat) => lo + (i : Int))

/-- The `years` list produced by the projector: `resolvedMin = minYear ?? currentYear`,
`resolvedMax = maxYear ?? resolvedMin`, then the inclusive year range. -/
def yearsOf {α : Type} (currentYear : Int) (entries : List (LinearEntry α)) :
    List Int :=
  let st := projectEntries entries
  let resolvedMin := st.minYear.getD currentYear
  let resolvedMax := st.maxYear.getD resolvedMin
  intRange resolvedMin resolvedMax

/-- JavaScript `Array.prototype.indexOf`: first index of the value, `-1`
when absent. -/
def jsIndexOf : List Int → Int → Int
  | [], _ => -1
  | y :: t, x =>
    if y = x then 0
    else
      let r := jsIndexOf t x
      if r = -1 then -1 else r + 1

/-- `goPrevYear` of `LinearReactView`: move to the previous year only when
the current year sits at a positive index of the `years` list. -/
def goPrevYear (years : List Int) (cur : Int) : Int :=
  let idx := jsIndexOf years cur
  if 0 < idx then years.getD (idx - 1).toNat cur else cur

/-- `goNextYear` of `LinearReactView`: move to the next year only when the
current year is present and not at the last index. -/
def goNextYear (years : List Int) (cur : Int) : Int :=
  let idx := jsIndexOf years cur
  if idx ≠ -1 ∧ idx < (years.length : Int) - 1 then years.getD (idx + 1).toNat cur
  else cur

theorem mem_insertOccupant {α : Type} (m : CDate → List (LinearEntry α))
    (k : CDate) (x : LinearEntry α) (k2 : CDate) (z : LinearEntry α) :
    z ∈ insertOccupant m k x k2 ↔ z ∈ m k2 ∨ (z = x ∧ k2 = k) := by
  unfold insertOccupant
  split_ifs with h <;> simp [h]

theorem mem_foldl_insert {α : Type} (e z : LinearEntry α) :
    ∀ (ks : List CDate) (m : CDate → List (LinearEntry α)) (k2 : CDate),
      z ∈ (ks.foldl (fun m2 k => insertOccupant m2 k e) m) k2 ↔
        z ∈ m k2 ∨ (z = e ∧ k2 ∈ ks) := by
  intro ks
  induction ks with
  | nil => simp
  | cons a t ih =>
    intro m k2
    rw [List.foldl_cons, ih, mem_insertOccupant]
    simp only [List.mem_cons]
    tauto

theorem processEntry_skip {α : Type} {st : ProjState α} {e : LinearEntry α}
    (h : dlt (entryEndC e) (entryStartC e)) : processEntry st e = st := by
  simp only [processEntry]
  rw [if_pos h]

theorem mem_processEntry_map {α : Type} (st : ProjState α) (e z : LinearEntry α)
    (k : CDate) :
    z ∈ (processEntry st e).map k ↔
      z ∈ st.map k ∨
        (contributes e ∧ z = e ∧ k ∈ walkDays (entryStartC e) (entryEndC e)) := by
  by_cases h : dlt (entryEndC e) (entryStartC e)
  · rw [processEntry_skip h]
    simp [contributes, h]
  · have hc : contributes e := h
    obtain ⟨a, sd, ed⟩ := e
    simp only [processEntry]
    rw [if_neg h]
    cases ed
    · dsimp only
      rw [mem_foldl_insert]
      simp [hc]
    · dsimp only
      rw [mem_foldl_insert]
      simp [hc]

theorem mem_foldl_processEntry {α : Type} (z : LinearEntry α) (k : CDate) :
    ∀ (entries : List (LinearEntry α)) (st : ProjState α),
      z ∈ (entries.foldl processEntry st).map k ↔
        z ∈ st.map k ∨
          ∃ e, e ∈ entries ∧ z = e ∧ contributes e ∧
            k ∈ walkDays (entryStartC e) (entryEndC e) := by
  intro entries
  induction entries with
  | nil => simp
  | cons e t ih =>
    intro st
    rw [List.foldl_cons, ih, mem_processEntry_map]
    simp only [List.mem_cons]
    constructor
    · rintro ((hz | ⟨hc, rfl, hw⟩) | ⟨e2, he2, rfl, hc2, hw2⟩)
      · exact Or.inl hz
      · exact Or.inr ⟨z, Or.inl rfl, rfl, hc, hw⟩
      · exact Or.inr ⟨z, Or.inr he2, rfl, hc2, hw2⟩
    · rintro (hz | ⟨e2, hin, rfl, hc2, hw2⟩)
      · exact Or.inl (Or.inl hz)
      · rcases hin with rfl | he2
        · exact Or.inl (Or.inr ⟨hc2, rfl, hw2⟩)
        · exact Or.inr ⟨z, he2, rfl, hc2, hw2⟩

theorem mem_projectEntries {α : Type} (z : LinearEntry α) (k : CDate)
    (entries : List (LinearEntry α)) :
    z ∈ (projectEntries entries).map k ↔
      ∃ e, e ∈ entries ∧ z = e ∧ contributes e ∧
        k ∈ walkDays (entryStartC e) (entryEndC e) := by
  unfold projectEntries
  rw [mem_foldl_processEntry]
  simp

theorem contributes_of_dle {α : Type} {e : LinearEntry α}
    (h : dle (entryStartC e) (entryEndC e)) : contributes e :=
  fun hd => not_dle_of_dlt hd h

/-- C1: an entry whose date-only start is on or before its date-only end
occupies exactly the valid calendar-day keys from start to end inclusive in
the projected day-map (time-of-day having been dropped into `entryStartC` /
`entryEndC`), and an entry with no end date occupies exactly its start day. -/
theorem dayMap_exact_range {α : Type} (entries : List (LinearEntry α))
    (e : LinearEntry α) (hmem : e ∈ entries)
    (hs : validDate (entryStartC e)) (_he : validDate (entryEndC e))
    (hle : dle (entryStartC e) (entryEndC e)) :
    (∀ k, e ∈ (projectEntries entries).map k ↔
      (validDate k ∧ dle (entryStartC e) k ∧ dle k (entryEndC e)))
    ∧ (e.endDate = none →
        ∀ k, e ∈ (projectEntries entries).map k ↔ (validDate k ∧ k = entryStartC e)) := by
  have hmain : ∀ k, e ∈ (projectEntries entries).map k ↔
      (validDate k ∧ dle (entryStartC e) k ∧ dle k (entryEndC e)) := by
    intro k
    rw [mem_projectEntries]
    constructor
    · rintro ⟨e2, _, rfl, _, hw⟩
      exact (mem_walkDays hs k).mp hw
    · intro hk
      exact ⟨e, hmem, rfl, contributes_of_dle hle, (mem_walkDays hs k).mpr hk⟩
  refine ⟨hmain, fun hnone k => ?_⟩
  have hend : entryEndC e = entryStartC e := by
    unfold entryEndC
    rw [hnone]
  rw [hmain k, hend]
  constructor
  · rintro ⟨hkv, h1, h2⟩
    exact ⟨hkv, dle_antisymm h2 h1⟩
  · rintro ⟨hkv, rfl⟩
    exact ⟨hkv, dle_refl _, dle_refl _⟩

theorem projectEntries_skip_cons {α : Type} {e : LinearEntry α}
    (h : dlt (entryEndC e) (entryStartC e)) (xs ys : List (LinearEntry α)) :
    projectEntries (xs ++ e :: ys) = projectEntries (xs ++ ys) := by
  unfold projectEntries
  rw [List.foldl_append, List.foldl_append, List.foldl_cons, processEntry_skip h]

/-- C2: an entry whose date-only end is strictly before its date-only start
appears in no day-map bucket, and removing it from the entry list leaves the
whole projector state (hence every other bucket) unchanged. -/
theorem reversed_range_skipped {α : Type} (e : LinearEntry α)
    (h : dlt (entryEndC e) (entryStartC e)) :
    (∀ (entries : List (LinearEntry α)) (k : CDate),
      e ∉ (projectEntries entries).map k)
    ∧ (∀ xs ys : List (LinearEntry α),
        projectEntries (xs ++ e :: ys) = projectEntries (xs ++ ys)) := by
  constructor
  · intro entries k hmem
    rw [mem_projectEntries] at hmem
    obtain ⟨e2, _, rfl, hc, _⟩ := hmem
    exact hc h
  · exact projectEntries_skip_cons h

/-- Concrete entry from the spec example: start 2025-03-30, end 2025-04-02
(months are zero-based in the embedding, matching `getMonth`). -/
def linC1Entry : LinearEntry Nat := ⟨0, ⟨⟨2025, 2, 30⟩, 540⟩, some ⟨⟨2025, 3, 2⟩, 60⟩⟩

theorem dayMap_exact_range_witness :
    (linC1Entry ∈ (projectEntries [linC1Entry]).map ⟨2025, 2, 30⟩)
    ∧ (linC1Entry ∈ (projectEntries [linC1Entry]).map ⟨2025, 2, 31⟩)
    ∧ (linC1Entry ∈ (projectEntries [linC1Entry]).map ⟨2025, 3, 1⟩)
    ∧ (linC1Entry ∈ (projectEntries [linC1Entry]).map ⟨2025, 3, 2⟩)
    ∧ (linC1Entry ∉ (projectEntries [linC1Entry]).map ⟨2025, 2, 29⟩)
    ∧ (linC1Entry ∉ (projectEntries [linC1Entry]).map ⟨2025, 3, 3⟩) := by
  have h := dayMap_exact_range [linC1Entry] linC1Entry (by simp) (by decide)
    (by decide) (by decide)
  refine ⟨(h.1 _).mpr (by decide), (h.1 _).mpr (by decide), (h.1 _).mpr (by decide),
    (h.1 _).mpr (by decide), fun hm => absurd ((h.1 _).mp hm) (by decide),
    fun hm => absurd ((h.1 _).mp hm) (by decide)⟩

/-- Concrete reversed-range entry: start 2025-03-10, end 2025-03-08. -/
def linC2Entry : LinearEntry Nat := ⟨1, ⟨⟨2025, 2, 10⟩, 0⟩, some ⟨⟨2025, 2, 8⟩, 0⟩⟩

/-- Concrete well-formed companion entry. -/
def linC2Other : LinearEntry Nat := ⟨2, ⟨⟨2025, 0, 5⟩, 0⟩, none⟩

theorem reversed_range_skipped_witness :
    (linC2Entry ∉ (projectEntries [linC2Entry]).map ⟨2025, 2, 10⟩)
    ∧ projectEntries [linC2Other, linC2Entry] = projectEntries [linC2Other] := by
  have h := reversed_range_skipped linC2Entry (by decide)
  exact ⟨h.1 [linC2Entry] _, h.2 [linC2Other] []⟩

/-- The years an entry contributes to the year tracking: its start-date year
and, when present, its end-date year (in the order the source inspects them). -/
def entryYears {α : Type} (e : LinearEntry α) : List Int :=
  e.startDate.date.y ::
    (match e.endDate with
     | some ed => [ed.date.y]
     | none => [])

/-- Specification-side characterization (following the claim wording): the
start/end years of every entry that is actually projected, in iteration
order; entries skipped by the reversed-range check contribute nothing. -/
def touchedYears {α : Type} : List (LinearEntry α) → List Int
  | [] => []
  | e :: t => (if contributes e then entryYears e else []) ++ touchedYears t

theorem processEntry_minYear {α : Type} (st : ProjState α) (e : LinearEntry α) :
    (processEntry st e).minYear =
      List.foldl stepMin st.minYear (if contributes e then entryYears e else []) := by
  by_cases h : dlt (entryEndC e) (entryStartC e)
  · rw [processEntry_skip h]
    have : ¬ contributes e := fun hc => hc h
    rw [if_neg this]
    rfl
  · have hc : contributes e := h
    rw [if_pos hc]
    obtain ⟨a, sd, ed⟩ := e
    simp only [processEntry]
    rw [if_neg h]
    cases ed <;> simp [entryYears]

theorem processEntry_maxYear {α : Type} (st : ProjState α) (e : LinearEntry α) :
    (processEntry st e).maxYear =
      List.foldl stepMax st.maxYear (if contributes e then entryYears e else []) := by
  by_cases h : dlt (entryEndC e) (entryStartC e)
  · rw [processEntry_skip h]
    have : ¬ contributes e := fun hc => hc h
    rw [if_neg this]
    rfl
  · have hc : contributes e := h
    rw [if_pos hc]
    obtain ⟨a, sd, ed⟩ := e
    simp only [processEntry]
    rw [if_neg h]
    cases ed <;> simp [entryYears]

theorem foldl_processEntry_minYear {α : Type} :
    ∀ (entries : List (LinearEntry α)) (st : ProjState α),
      (entries.foldl processEntry st).minYear =
        List.foldl stepMin st.minYear (touchedYears entries) := by
  intro entries
  induction entries with
  | nil => intro st; rfl
  | cons e t ih =>
    intro st
    rw [List.foldl_cons, ih, processEntry_minYear]
    rw [show touchedYears (e :: t) =
      (if contributes e then entryYears e else []) ++ touchedYears t from rfl]
    rw [List.foldl_append]

theorem foldl_processEntry_maxYear {α : Type} :
    ∀ (entries : List (LinearEntry α)) (st : ProjState α),
      (entries.foldl processEntry st).maxYear =
        List.foldl stepMax st.maxYear (touchedYears entries) := by
  intro entries
  induction entries with
  | nil => intro st; rfl
  | cons e t ih =>
    intro st
    rw [List.foldl_cons, ih, processEntry_maxYear]
    rw [show touchedYears (e :: t) =
      (if contributes e then entryYears e else []) ++ touchedYears t from rfl]
    rw [List.foldl_append]

theorem foldl_stepMin_some_spec :
    ∀ (l : List Int) (a : Int),
      ∃ b, List.foldl stepMin (some a) l = some b ∧ b ≤ a ∧
        (∀ x ∈ l, b ≤ x) ∧ (b = a ∨ b ∈ l) := by
  intro l
  induction l with
  | nil => intro a; exact ⟨a, rfl, le_refl a, by simp, Or.inl rfl⟩
  | cons y t ih =>
    intro a
    have hstep : stepMin (some a) y = some (min a y) := by simp [stepMin]
    obtain ⟨b, hb, hba, hball, hbmem⟩ := ih (min a y)
    refine ⟨b, ?_, ?_, ?_, ?_⟩
    · rw [List.foldl_cons, hstep]
      exact hb
    · exact le_trans hba (min_le_left a y)
    · intro x hx
      rcases List.mem_cons.mp hx with rfl | hx2
      · exact le_trans hba (min_le_right a x)
      · exact hball x hx2
    · rcases hbmem with hba2 | hbm
      · rcases min_choice a y with hmin | hmin
        · exact Or.inl (hba2.trans hmin)
        · refine Or.inr ?_
          rw [hba2, hmin]
          exact List.mem_cons_self y t
      · exact Or.inr (List.mem_cons_of_mem y hbm)

theorem foldl_stepMax_some_spec :
    ∀ (l : List Int) (a : Int),
      ∃ b, List.foldl stepMax (some a) l = some b ∧ a ≤ b ∧
        (∀ x ∈ l, x ≤ b) ∧ (b = a ∨ b ∈ l) := by
  intro l
  induction l with
  | nil => intro a; exact ⟨a, rfl, le_refl a, by simp, Or.inl rfl⟩
  | cons y t ih =>
    intro a
    have hstep : stepMax (some a) y = some (max a y) := by simp [stepMax]
    obtain ⟨b, hb, hba, hball, hbmem⟩ := ih (max a y)
    refine ⟨b, ?_, ?_, ?_, ?_⟩
    · rw [List.foldl_cons, hstep]
      exact hb
    · exact le_trans (le_max_left a y) hba
    · intro x hx
      rcases List.mem_cons.mp hx with rfl | hx2
      · exact le_trans (le_max_right a x) hba
      · exact hball x hx2
    · rcases hbmem with hba2 | hbm
      · rcases max_choice a y with hmax | hmax
        · exact Or.inl (hba2.trans hmax)
        · refine Or.inr ?_
          rw [hba2, hmax]
          exact List.mem_cons_self y t
      · exact Or.inr (List.mem_cons_of_mem y hbm)

theorem foldl_stepMin_none_spec (l : List Int) (m : Int)
    (h : List.foldl stepMin none l = some m) :
    m ∈ l ∧ ∀ x ∈ l, m ≤ x := by
  cases l with
  | nil => simp at h
  | cons y t =>
    rw [List.foldl_cons, show stepMin none y = some y by simp [stepMin]] at h
    obtain ⟨b, hb, hba, hball, hbmem⟩ := foldl_stepMin_some_spec t y
    rw [hb, Option.some.injEq] at h
    subst h
    constructor
    · rcases hbmem with rfl | hbm
      · exact List.mem_cons_self _ _
      · exact List.mem_cons_of_mem y hbm
    · intro x hx
      rcases List.mem_cons.mp hx with rfl | hx2
      · exact hba
      · exact hball x hx2

theorem foldl_stepMax_none_spec (l : List Int) (m : Int)
    (h : List.foldl stepMax none l = some m) :
    m ∈ l ∧ ∀ x ∈ l, x ≤ m := by
  cases l with
  | nil => simp at h
  | cons y t =>
    rw [List.foldl_cons, show stepMax none y = some y by simp [stepMax]] at h
    obtain ⟨b, hb, hba, hball, hbmem⟩ := foldl_stepMax_some_spec t y
    rw [hb, Option.some.injEq] at h
    subst h
    constructor
    · rcases hbmem with rfl | hbm
      · exact List.mem_cons_self _ _
      · exact List.mem_cons_of_mem y hbm
    · intro x hx
      rcases List.mem_cons.mp hx with rfl | hx2
      · exact hba
      · exact hball x hx2

theorem jsIndexOf_spec :
    ∀ (l : List Int) (x : Int), x ∈ l →
      0 ≤ jsIndexOf l x ∧ jsIndexOf l x < (l.length : Int) := by
  intro l
  induction l with
  | nil => intro x hx; simp at hx
  | cons y t ih =>
    intro x hx
    simp only [jsIndexOf]
    by_cases h : y = x
    · rw [if_pos h]
      simp only [List.length_cons]
      refine ⟨by norm_num, ?_⟩
      push_cast
      omega
    · rw [if_neg h]
      have hx2 : x ∈ t := by
        rcases List.mem_cons.mp hx with h2 | h2
        · exact absurd h2.symm h
        · exact h2
      have hspec := ih x hx2
      simp only [List.length_cons]
      split_ifs with hr
      · push_cast
        omega
      · push_cast
        omega

theorem getD_mem_int :
    ∀ (l : List Int) (n : Nat) (d : Int), n < l.length → l.getD n d ∈ l := by
  intro l
  induction l with
  | nil => intro n d h; simp at h
  | cons y t ih =>
    intro n d h
    cases n with
    | zero => simp
    | succ n =>
      simp only [List.getD_cons_succ]
      refine List.mem_cons_of_mem y (ih n d ?_)
      simp only [List.length_cons] at h
      omega

theorem goPrevYear_mem {years : List Int} {cur : Int} (h : cur ∈ years) :
    goPrevYear years cur ∈ years := by
  have hs := jsIndexOf_spec years cur h
  simp only [goPrevYear]
  split_ifs with hpos
  · apply getD_mem_int
    omega
  · exact h

theorem goNextYear_mem {years : List Int} {cur : Int} (h : cur ∈ years) :
    goNextYear years cur ∈ years := by
  have hs := jsIndexOf_spec years cur h
  simp only [goNextYear]
  split_ifs with hcond
  · apply getD_mem_int
    omega
  · exact h

theorem intRange_self (a : Int) : intRange a a = [a] := by
  unfold intRange
  rw [show a + 1 - a = (1 : Int) from by ring]
  rw [show ((1 : Int).toNat) = 1 from rfl, show List.range 1 = [0] from rfl]
  simp only [List.map_cons, List.map_nil, Nat.cast_zero, add_zero]

/-- C9: the projector's year span runs from the minimum to the maximum over
the start-date years and (when present) end-date years of the projected
entries; navigation stays inside that span; an empty span falls back to the
ambient current year. -/
theorem yearSpan_spec {α : Type} (cy : Int) (entries : List (LinearEntry α)) :
    (touchedYears entries = [] → yearsOf cy entries = [cy])
    ∧ (∀ mn mx : Int,
        List.foldl stepMin none (touchedYears entries) = some mn →
        List.foldl stepMax none (touchedYears entries) = some mx →
        (mn ∈ touchedYears entries ∧ ∀ v ∈ touchedYears entries, mn ≤ v)
        ∧ (mx ∈ touchedYears entries ∧ ∀ v ∈ touchedYears entries, v ≤ mx)
        ∧ yearsOf cy entries = intRange mn mx)
    ∧ (∀ cur, cur ∈ yearsOf cy entries →
        goPrevYear (yearsOf cy entries) cur ∈ yearsOf cy entries
        ∧ goNextYear (yearsOf cy entries) cur ∈ yearsOf cy entries) := by
  have hmin : (projectEntries entries).minYear =
      List.foldl stepMin none (touchedYears entries) :=
    foldl_processEntry_minYear entries _
  have hmax : (projectEntries entries).maxYear =
      List.foldl stepMax none (touchedYears entries) :=
    foldl_processEntry_maxYear entries _
  refine ⟨?_, ?_, ?_⟩
  · intro hemp
    simp only [yearsOf, hmin, hmax, hemp, List.foldl_nil, Option.getD_none]
    exact intRange_self cy
  · intro mn mx hmn hmx
    refine ⟨foldl_stepMin_none_spec _ _ hmn, foldl_stepMax_none_spec _ _ hmx, ?_⟩
    simp only [yearsOf, hmin, hmax, hmn, hmx, Option.getD_some]
  · intro cur hcur
    exact ⟨goPrevYear_mem hcur, goNextYear_mem hcur⟩

/-- C10: an entry with reversed range contributes nothing to the year span
or the navigation bounds either; the whole year computation is as if the
entry were absent. -/
theorem reversed_range_no_year_effect {α : Type} (e : LinearEntry α)
    (h : dlt (entryEndC e) (entryStartC e)) :
    ∀ (xs ys : List (LinearEntry α)) (cy : Int),
      (projectEntries (xs ++ e :: ys)).minYear = (projectEntries (xs ++ ys)).minYear
      ∧ (projectEntries (xs ++ e :: ys)).maxYear = (projectEntries (xs ++ ys)).maxYear
      ∧ yearsOf cy (xs ++ e :: ys) = yearsOf cy (xs ++ ys) := by
  intro xs ys cy
  have hp := projectEntries_skip_cons h xs ys
  refine ⟨?_, ?_, ?_⟩
  · rw [hp]
  · rw [hp]
  · simp only [yearsOf]
    rw [hp]

/-- Entry with only a start date in 2024, from the spec example. -/
def linC9Start2024 : LinearEntry Nat := ⟨10, ⟨⟨2024, 4, 1⟩, 0⟩, none⟩

/-- Entry spanning 2023-12-30 to 2024-01-02, from the spec example. -/
def linC9Span : LinearEntry Nat := ⟨11, ⟨⟨2023, 11, 30⟩, 0⟩, some ⟨⟨2024, 0, 2⟩, 0⟩⟩

theorem yearSpan_spec_witness :
    yearsOf 2024 [linC9Start2024, linC9Span] = [2023, 2024]
    ∧ goPrevYear (yearsOf 2024 [linC9Start2024, linC9Span]) 2024
        ∈ yearsOf 2024 [linC9Start2024, linC9Span] := by
  have h := (yearSpan_spec 2024 [linC9Start2024, linC9Span]).2.1 2023 2024
    (by decide) (by decide)
  have hy : yearsOf 2024 [linC9Start2024, linC9Span] = [2023, 2024] :=
    h.2.2.trans (by decide)
  refine ⟨hy, ?_⟩
  exact ((yearSpan_spec 2024 [linC9Start2024, linC9Span]).2.2 2024
    (by rw [hy]; decide)).1

/-- Reversed-range entry (start 2022-07-20, end 2021-01-01). -/
def linC10Entry : LinearEntry Nat := ⟨3, ⟨⟨2022, 6, 20⟩, 0⟩, some ⟨⟨2021, 0, 1⟩, 0⟩⟩

/-- Well-formed companion entry with start 2024-03-14 and no end. -/
def linC10Other : LinearEntry Nat := ⟨4, ⟨⟨2024, 2, 14⟩, 0⟩, none⟩

theorem reversed_range_no_year_effect_witness :
    yearsOf 2024 [linC10Other, linC10Entry] = yearsOf 2024 [linC10Other] :=
  (reversed_range_no_year_effect linC10Entry (by decide) [linC10Other] [] 2024).2.2

/-- Little-endian decimal digits of `n`, with explicit fuel (the fuel `n`
itself always suffices); this is the digit sequence JavaScript renders for a
number in a template string. -/
def natToRevDigits : Nat → Nat → List Nat
  | 0, _ => []
  | _ + 1, 0 => []
  | f + 1, n + 1 => ((n + 1) % 10) :: natToRevDigits f ((n + 1) / 10)

/-- The character for a single decimal digit. -/
def digitChar (d : Nat) : Char := Char.ofNat (48 + d)

/-- Decimal rendering of a natural number as a character list, modelling the
JavaScript template interpolation `String(n)`. -/
def natReprL (n : Nat) : List Char :=
  if n = 0 then ['0'] else (natToRevDigits n n).reverse.map digitChar

/-- Decimal rendering of a possibly negative integer (`getFullYear` may in
principle be negative in JavaScript). -/
def intReprL (y : Int) : List Char :=
  if y < 0 then '-' :: natReprL (-y).toNat else natReprL y.toNat

/-- `String(n).padStart(2, "0")` as a character-list operation. -/
def pad2L (l : List Char) : List Char := List.replicate (2 - l.length) '0' ++ l

/-- The `formatDate` template of `CalendarView.updateEntryDates`:
`year-month-day` with the one-based month and the day padded to two digits. -/
def ymdChars (c : CDate) : List Char :=
  intReprL c.y ++ '-' :: (pad2L (natReprL (c.m + 1)) ++ '-' :: pad2L (natReprL c.d))

/-- `formatDate(date)` reads only `getFullYear`, `getMonth`, `getDate`: the
time-of-day payload never reaches the persisted string. -/
def formatDate (x : JSDate) : String := String.mk (ymdChars x.date)

/-- ASCII decimal digit test. -/
def isDigitC (c : Char) : Bool := 48 ≤ c.toNat && c.toNat ≤ 57

/-- Value of a big-endian decimal digit string. -/
def digitsVal (cs : List Char) : Nat :=
  cs.foldl (fun a c => a * 10 + (c.toNat - 48)) 0

/-- Parse a nonempty all-digit character list as a natural number. -/
def parseNatL (cs : List Char) : Option Nat :=
  if cs.isEmpty then none
  else if cs.all isDigitC then some (digitsVal cs) else none

/-- Split a character list at every occurrence of the separator. -/
def splitOnChar (sep : Char) : List Char → List (List Char)
  | [] => [[]]
  | c :: cs =>
    let r := splitOnChar sep cs
    if c = sep then [] :: r
    else
      match r with
      | [] => [[c]]
      | h :: t => (c :: h) :: t

/-- Host-side re-extraction of a persisted `YYYY-MM-DD` front-matter string:
reading the year, one-based month and day back into date components (the
month stored zero-based again, as `getMonth` exposes it). -/
def parseYMD (s : String) : Option CDate :=
  match splitOnChar '-' s.data with
  | [ys, ms, ds] =>
    match parseNatL ys, parseNatL ms, parseNatL ds with
    | some yv, some mv, some dv => some ⟨(yv : Int), mv - 1, dv⟩
    | _, _, _ => none
  | _ => none

theorem natToRevDigits_lt_ten :
    ∀ (fuel n : Nat), ∀ x ∈ natToRevDigits fuel n, x < 10 := by
  intro fuel
  induction fuel with
  | zero => intro n x hx; simp [natToRevDigits] at hx
  | succ f ih =>
    intro n x hx
    cases n with
    | zero => simp [natToRevDigits] at hx
    | succ n =>
      simp only [natToRevDigits, List.mem_cons] at hx
      rcases hx with rfl | hx2
      · omega
      · exact ih _ x hx2

theorem natToRevDigits_val :
    ∀ (fuel n : Nat), n ≤ fuel →
      List.foldr (fun d acc => d + 10 * acc) 0 (natToRevDigits fuel n) = n := by
  intro fuel
  induction fuel with
  | zero => intro n h; interval_cases n; rfl
  | succ f ih =>
    intro n h
    cases n with
    | zero => rfl
    | succ n =>
      simp only [natToRevDigits, List.foldr_cons]
      rw [ih ((n + 1) / 10) (by omega)]
      omega

theorem foldl_rev_digits :
    ∀ (L : List Nat) (a : Nat),
      List.foldl (fun x d => x * 10 + d) a L.reverse =
        a * 10 ^ L.length + List.foldr (fun d acc => d + 10 * acc) 0 L := by
  intro L
  induction L with
  | nil => intro a; simp
  | cons d t ih =>
    intro a
    simp only [List.reverse_cons, List.foldl_append, List.foldl_cons,
      List.foldl_nil, List.foldr_cons, List.length_cons]
    rw [ih a, pow_succ]
    ring

theorem digitChar_facts {d : Nat} (h : d < 10) :
    (digitChar d).toNat = 48 + d ∧ isDigitC (digitChar d) = true := by
  interval_cases d <;> exact ⟨rfl, rfl⟩

theorem foldl_map_digitChar :
    ∀ (L : List Nat) (a : Nat), (∀ x ∈ L, x < 10) →
      List.foldl (fun x c => x * 10 + (c.toNat - 48)) a (L.map digitChar) =
        List.foldl (fun x d => x * 10 + d) a L := by
  intro L
  induction L with
  | nil => intro a _; rfl
  | cons d t ih =>
    intro a h
    have hd : d < 10 := h d (List.mem_cons_self d t)
    simp only [List.map_cons, List.foldl_cons]
    rw [(digitChar_facts hd).1]
    rw [show 48 + d - 48 = d from by omega]
    exact ih _ (fun x hx => h x (List.mem_cons_of_mem d hx))

theorem digitsVal_natReprL (n : Nat) : digitsVal (natReprL n) = n := by
  unfold natReprL
  split_ifs with h
  · subst h; rfl
  · unfold digitsVal
    rw [foldl_map_digitChar _ 0
      (fun x hx => natToRevDigits_lt_ten n n x (List.mem_reverse.mp hx))]
    rw [foldl_rev_digits]
    rw [natToRevDigits_val n n (le_refl n)]
    simp

theorem natReprL_all_digits (n : Nat) : ∀ x ∈ natReprL n, isDigitC x = true := by
  intro x hx
  unfold natReprL at hx
  split_ifs at hx with h
  · rcases List.mem_singleton.mp hx with rfl
    rfl
  · obtain ⟨d, hd, rfl⟩ := List.mem_map.mp hx
    exact (digitChar_facts (natToRevDigits_lt_ten n n d (List.mem_reverse.mp hd))).2

theorem natReprL_ne_nil (n : Nat) : natReprL n ≠ [] := by
  unfold natReprL
  split_ifs with h
  · simp
  · cases n with
    | zero => exact absurd rfl h
    | succ n => simp [natToRevDigits]

theorem ne_dash_of_digit {c : Char} (h : isDigitC c = true) : c ≠ '-' := by
  intro he
  subst he
  exact absurd h (by decide)

theorem pad2L_all_digits {l : List Char} (h : ∀ x ∈ l, isDigitC x = true) :
    ∀ x ∈ pad2L l, isDigitC x = true := by
  intro x hx
  unfold pad2L at hx
  rcases List.mem_append.mp hx with hx2 | hx2
  · rcases List.eq_of_mem_replicate hx2 with rfl
    rfl
  · exact h x hx2

theorem pad2L_ne_nil {l : List Char} (h : l ≠ []) : pad2L l ≠ [] := by
  unfold pad2L
  intro he
  rcases List.append_eq_nil.mp he with ⟨_, h2⟩
  exact h h2

theorem digitsVal_replicate_zero :
    ∀ (k : Nat) (l : List Char),
      digitsVal (List.replicate k '0' ++ l) = digitsVal l := by
  intro k
  induction k with
  | zero => intro l; rfl
  | succ k ih =>
    intro l
    unfold digitsVal at *
    simp only [List.replicate_succ, List.cons_append, List.foldl_cons]
    exact ih l

theorem digitsVal_pad2L (l : List Char) : digitsVal (pad2L l) = digitsVal l :=
  digitsVal_replicate_zero (2 - l.length) l

theorem parseNatL_of_digits {cs : List Char} (h1 : cs ≠ [])
    (h2 : ∀ x ∈ cs, isDigitC x = true) : parseNatL cs = some (digitsVal cs) := by
  unfold parseNatL
  cases cs with
  | nil => exact absurd rfl h1
  | cons c t =>
    rw [if_neg (by simp)]
    rw [if_pos (List.all_eq_true.mpr h2)]

theorem intReprL_nonneg {y : Int} (h : 0 ≤ y) : intReprL y = natReprL y.toNat := by
  unfold intReprL
  rw [if_neg (by omega)]

theorem splitOnChar_ne_nil (sep : Char) : ∀ l : List Char, splitOnChar sep l ≠ [] := by
  intro l
  cases l with
  | nil => simp [splitOnChar]
  | cons c cs =>
    simp only [splitOnChar]
    split_ifs
    · simp
    · cases hr : splitOnChar sep cs <;> simp

theorem splitOnChar_sep_cons (sep : Char) (l : List Char) :
    splitOnChar sep (sep :: l) = [] :: splitOnChar sep l := by
  simp [splitOnChar]

theorem splitOnChar_append_noSep (sep : Char) :
    ∀ (a l : List Char), (∀ x ∈ a, x ≠ sep) →
      splitOnChar sep (a ++ l) =
        match splitOnChar sep l with
        | [] => [a]
        | h :: t => (a ++ h) :: t := by
  intro a
  induction a with
  | nil =>
    intro l _
    cases hr : splitOnChar sep l with
    | nil => exact absurd hr (splitOnChar_ne_nil sep l)
    | cons h0 t0 => simp [hr]
  | cons c a ih =>
    intro l h
    have hc : c ≠ sep := h c (List.mem_cons_self c a)
    have ha : ∀ x ∈ a, x ≠ sep := fun x hx => h x (List.mem_cons_of_mem c hx)
    simp only [List.cons_append, splitOnChar, List.append_eq]
    rw [if_neg hc, ih l ha]
    cases hr : splitOnChar sep l with
    | nil => exact absurd hr (splitOnChar_ne_nil sep l)
    | cons h0 t0 => simp

theorem splitOnChar_single {sep : Char} {a : List Char}
    (ha : ∀ x ∈ a, x ≠ sep) : splitOnChar sep a = [a] := by
  have h := splitOnChar_append_noSep sep a [] ha
  rw [show splitOnChar sep ([] : List Char) = [[]] from rfl] at h
  simpa using h

theorem splitOnChar_three {sep : Char} {a b c : List Char}
    (ha : ∀ x ∈ a, x ≠ sep) (hb : ∀ x ∈ b, x ≠ sep) (hc : ∀ x ∈ c, x ≠ sep) :
    splitOnChar sep (a ++ sep :: (b ++ sep :: c)) = [a, b, c] := by
  have h2 : splitOnChar sep (b ++ sep :: c) = [b, c] := by
    rw [splitOnChar_append_noSep sep b _ hb, splitOnChar_sep_cons,
      splitOnChar_single hc]
    simp
  rw [splitOnChar_append_noSep sep a _ ha, splitOnChar_sep_cons, h2]
  simp

theorem parseNatL_natReprL (n : Nat) : parseNatL (natReprL n) = some n := by
  rw [parseNatL_of_digits (natReprL_ne_nil n) (natReprL_all_digits n)]
  rw [digitsVal_natReprL]

theorem parseNatL_pad2_natReprL (n : Nat) :
    parseNatL (pad2L (natReprL n)) = some n := by
  rw [parseNatL_of_digits (pad2L_ne_nil (natReprL_ne_nil n))
    (pad2L_all_digits (natReprL_all_digits n))]
  rw [digitsVal_pad2L, digitsVal_natReprL]

/-- Round trip: a persisted `YYYY-MM-DD` string (for a valid date with a
non-negative year) parses back to exactly the date components it was
formatted from. -/
theorem parseYMD_ymdChars {c : CDate} (hy : 0 ≤ c.y) :
    parseYMD (String.mk (ymdChars c)) = some c := by
  unfold parseYMD
  rw [show (String.mk (ymdChars c)).data = ymdChars c from rfl]
  unfold ymdChars
  rw [intReprL_nonneg hy]
  rw [splitOnChar_three
    (fun x hx => ne_dash_of_digit (natReprL_all_digits _ x hx))
    (fun x hx => ne_dash_of_digit (pad2L_all_digits (natReprL_all_digits _) x hx))
    (fun x hx => ne_dash_of_digit (pad2L_all_digits (natReprL_all_digits _) x hx))]
  simp only [parseNatL_natReprL, parseNatL_pad2_natReprL, Option.some.injEq,
    cdate_eq_iff]
  refine ⟨by omega, by omega, trivial⟩

theorem dlt_irrefl (a : CDate) : ¬ dlt a a := by unfold dlt; omega

/-- The `CalendarEntry` record of the month view: an opaque record with its
extracted start date and optional end date (the month view declares the same
shape as the linear view). -/
structure CalendarEntry (α : Type) where
  entry : α
  startDate : JSDate
  endDate : Option JSDate
deriving DecidableEq

/-- `new Date(d); copy.setDate(copy.getDate() + 1)` on a valid date: the
calendar-day successor, keeping the time-of-day payload. -/
def jsAddDay (x : JSDate) : JSDate := ⟨nextDay x.date, x.timeMs⟩

/-- `new Date(d); copy.setDate(copy.getDate() - 1)` on a valid date. -/
def jsSubDay (x : JSDate) : JSDate := ⟨prevDay x.date, x.timeMs⟩

theorem jsSubDay_jsAddDay {x : JSDate} (h : validDate x.date) :
    jsSubDay (jsAddDay x) = x := by
  obtain ⟨d, t⟩ := x
  unfold jsAddDay jsSubDay
  dsimp only at *
  rw [prevDay_nextDay h]

/-- The widget event produced by the `events` mapping of `CalendarReactView`:
start, exclusive-adjusted end (`end` in the source; named `eventEnd` here),
and the extended props carrying the entry and its original end date.  The
purely presentational fields (`id`, `title`, `allDay`) are omitted. -/
structure FCEvent (α : Type) where
  start : JSDate
  eventEnd : Option JSDate
  entry : α
  originalEndDate : Option JSDate
deriving DecidableEq

/-- The `events` mapping of `CalendarReactView`: the exclusive-end
adaptation.  Same-day ranges pass no end at all; multi-day ranges pass the
inclusive end plus one day. -/
def toFCEvent {α : Type} (ce : CalendarEntry α) : FCEvent α :=
  let adjustedEndDate : Option JSDate :=
    match ce.endDate with
    | none => none
    | some ed =>
      if dateOnly ce.startDate = dateOnly ed then none
      else some (jsAddDay ed)
  { start := ce.startDate, eventEnd := adjustedEndDate,
    entry := ce.entry, originalEndDate := ce.endDate }

/-- C3: the widget event carries no end for entries without an end date and
for same-day ranges, and the inclusive end plus one day for ranges whose end
day is strictly later than the start day. -/
theorem monthGrid_exclusive_end {α : Type} (ce : CalendarEntry α) :
    (ce.endDate = none → (toFCEvent ce).eventEnd = none)
    ∧ (∀ ed, ce.endDate = some ed → dateOnly ed = dateOnly ce.startDate →
        (toFCEvent ce).eventEnd = none)
    ∧ (∀ ed, ce.endDate = some ed → dlt (dateOnly ce.startDate) (dateOnly ed) →
        (toFCEvent ce).eventEnd = some (jsAddDay ed)) := by
  refine ⟨?_, ?_, ?_⟩
  · intro h
    simp [toFCEvent, h]
  · intro ed h he
    simp [toFCEvent, h, he.symm]
  · intro ed h hlt
    have hne : ¬ dateOnly ce.startDate = dateOnly ed := by
      intro he
      rw [he] at hlt
      exact dlt_irrefl _ hlt
    simp [toFCEvent, h, hne]

/-- Concrete multi-day entry: start 2025-01-05, end 2025-01-07. -/
def calC3Entry : CalendarEntry Nat := ⟨7, ⟨⟨2025, 0, 5⟩, 100⟩, some ⟨⟨2025, 0, 7⟩, 200⟩⟩

theorem monthGrid_exclusive_end_witness :
    (toFCEvent calC3Entry).eventEnd = some (jsAddDay ⟨⟨2025, 0, 7⟩, 200⟩) :=
  (monthGrid_exclusive_end calC3Entry).2.2 ⟨⟨2025, 0, 7⟩, 200⟩ rfl (by decide)

/-- Outcome of the drop handler: revert the drag, or invoke the persistence
callback with the new start and optional new end. -/
inductive DropAction (α : Type) where
  | revert : DropAction α
  | persist (entry : α) (newStart : JSDate) (newEnd : Option JSDate) : DropAction α
deriving DecidableEq

/-- `handleEventDrop` of `CalendarReactView` (for a view with a persistence
callback installed): revert when the widget reports no start; otherwise
compute `actualEndDate` — reported end minus one day when supplied, the new
start when the event had an original end but the widget reports none, and
nothing when the entry never had an end date. -/
def handleEventDrop {α : Type} (entry : α) (originalEndDate : Option JSDate)
    (newStart : Option JSDate) (newEnd : Option JSDate) : DropAction α :=
  match newStart with
  | none => .revert
  | some s =>
    let actualEndDate : Option JSDate :=
      match originalEndDate with
      | some _ =>
        match newEnd with
        | some ne => some (jsSubDay ne)
        | none => some s
      | none => none
    .persist entry s actualEndDate

/-- The `propId.startsWith("note.")` check of `CalendarView.updateEntryDates`,
on the characters of the property id. -/
def startsWithNote (s : String) : Bool :=
  match s.data with
  | 'n' :: 'o' :: 't' :: 'e' :: '.' :: _ => true
  | _ => false

/-- `propId.slice(5)`: strip the five-character `note.` prefix. -/
def drop5 (s : String) : String := String.mk (s.data.drop 5)

/-- `CalendarView.updateEntryDates`: the list of front-matter assignments
performed inside `processFrontMatter` (empty when the `shouldUpdate` guard
fails).  The start property is always written; the end property is written
only when an end property is configured, a new end was supplied, and the end
property is note-owned. -/
def updateEntryDates (startProp : String) (endProp : Option String)
    (newStart : JSDate) (newEnd : Option JSDate) : List (String × String) :=
  let extractedStartProp : Option String :=
    if startsWithNote startProp then some (drop5 startProp) else none
  let extractedEndProp : Option String :=
    match endProp with
    | some p => if startsWithNote p then some (drop5 p) else none
    | none => none
  match extractedStartProp with
  | none => []
  | some sk =>
    if endProp ≠ none ∧ extractedEndProp = none then []
    else
      (sk, formatDate newStart) ::
        (match endProp, newEnd, extractedEndProp with
         | some _, some ne2, some ek => [(ek, formatDate ne2)]
         | _, _, _ => [])

/-- The complete drop-to-persistence pipeline: `handleEventDrop` feeding
`updateEntryDates` through the `onEventDrop` callback; `none` when the drop
is reverted. -/
def dropPersistWrites {α : Type} (startProp : String) (endProp : Option String)
    (entry : α) (originalEndDate newStart newEnd : Option JSDate) :
    Option (List (String × String)) :=
  match handleEventDrop entry originalEndDate newStart newEnd with
  | .revert => none
  | .persist _ s e => some (updateEntryDates startProp endProp s e)

theorem updateEntryDates_both {startProp ep : String}
    (hs : startsWithNote startProp = true) (he : startsWithNote ep = true)
    (s ne : JSDate) :
    updateEntryDates startProp (some ep) s (some ne) =
      [(drop5 startProp, formatDate s), (drop5 ep, formatDate ne)] := by
  simp [updateEntryDates, hs, he]

theorem updateEntryDates_start_only {startProp ep : String}
    (hs : startsWithNote startProp = true) (he : startsWithNote ep = true)
    (s : JSDate) :
    updateEntryDates startProp (some ep) s none =
      [(drop5 startProp, formatDate s)] := by
  simp [updateEntryDates, hs, he]

/-- C4: a month-view drag of an event with an original end date, where the
widget reports new start `S` and exclusive end `E + 1 day`, persists start
`S` and end `E` as date-only `YYYY-MM-DD` strings (the time-of-day payload
never reaches the string), and re-extracting the persisted strings
reproduces the date-only components of `S` and `E` exactly. -/
theorem dragRoundTrip_spec {α : Type} (entry : α) (startProp ep : String)
    (hs : startsWithNote startProp = true) (he : startsWithNote ep = true)
    (oe S E : JSDate) (hE : validDate E.date)
    (hyS : 0 ≤ S.date.y) (hyE : 0 ≤ E.date.y) :
    handleEventDrop entry (some oe) (some S) (some (jsAddDay E)) =
      DropAction.persist entry S (some E)
    ∧ dropPersistWrites startProp (some ep) entry (some oe) (some S)
        (some (jsAddDay E)) =
        some [(drop5 startProp, String.mk (ymdChars S.date)),
              (drop5 ep, String.mk (ymdChars E.date))]
    ∧ parseYMD (String.mk (ymdChars S.date)) = some S.date
    ∧ parseYMD (String.mk (ymdChars E.date)) = some E.date
    ∧ (∀ t : Nat, formatDate ⟨S.date, t⟩ = formatDate S) := by
  have h1 : handleEventDrop entry (some oe) (some S) (some (jsAddDay E)) =
      DropAction.persist entry S (some E) := by
    simp [handleEventDrop, jsSubDay_jsAddDay hE]
  refine ⟨h1, ?_, parseYMD_ymdChars hyS, parseYMD_ymdChars hyE, fun t => rfl⟩
  unfold dropPersistWrites
  rw [h1]
  dsimp only
  rw [updateEntryDates_both hs he]
  rfl

theorem dragRoundTrip_spec_witness :
    dropPersistWrites "note.start" (some "note.end") (0 : Nat)
        (some ⟨⟨2025, 4, 3⟩, 0⟩) (some ⟨⟨2025, 4, 6⟩, 500⟩)
        (some (jsAddDay ⟨⟨2025, 4, 9⟩, 750⟩))
      = some [("start", "2025-05-06"), ("end", "2025-05-09")]
    ∧ parseYMD "2025-05-09" = some ⟨2025, 4, 9⟩ := by
  have h := dragRoundTrip_spec (0 : Nat) "note.start" "note.end" (by decide) (by decide)
    ⟨⟨2025, 4, 3⟩, 0⟩ ⟨⟨2025, 4, 6⟩, 500⟩ ⟨⟨2025, 4, 9⟩, 750⟩ (by decide)
    (by decide) (by decide)
  refine ⟨h.2.1.trans (by decide), ?_⟩
  have h4 := h.2.2.2.1
  rwa [show String.mk (ymdChars (⟨⟨2025, 4, 9⟩, 750⟩ : JSDate).date) = "2025-05-09"
    from by decide] at h4

/-- C5 counterexample: a single-day entry (start 2025-01-10, end the same
calendar day) is handed to the widget with no end; dragging it to 2025-01-15
(the widget reports a new start and no end) persists an end-date write of
the new start day — the write list is not start-only. -/
theorem singleDay_drop_counterexample :
    (toFCEvent (⟨0, ⟨⟨2025, 0, 10⟩, 0⟩, some ⟨⟨2025, 0, 10⟩, 30⟩⟩ :
      CalendarEntry Nat)).eventEnd = none
    ∧ dropPersistWrites "note.start" (some "note.end") (0 : Nat)
        (some ⟨⟨2025, 0, 10⟩, 30⟩) (some ⟨⟨2025, 0, 15⟩, 0⟩) none
      = some [("start", "2025-01-15"), ("end", "2025-01-15")]
    ∧ ("end", "2025-01-15") ∈
        (dropPersistWrites "note.start" (some "note.end") (0 : Nat)
          (some ⟨⟨2025, 0, 10⟩, 30⟩) (some ⟨⟨2025, 0, 15⟩, 0⟩) none).getD [] := by
  refine ⟨rfl, by decide, by decide⟩

/-- C5 amended: when a dragged event had an original end date and the widget
reports no end (the single-day case), the persistence write updates the
start property to the new day and also writes the end property, collapsed to
that same new start day; only an entry that had no end date at all gets a
start-only write. -/
theorem singleDay_drop_end_collapses {α : Type} (entry : α) (startProp ep : String)
    (hs : startsWithNote startProp = true) (he : startsWithNote ep = true)
    (oe S : JSDate) :
    dropPersistWrites startProp (some ep) entry (some oe) (some S) none
      = some [(drop5 startProp, formatDate S), (drop5 ep, formatDate S)]
    ∧ dropPersistWrites startProp (some ep) entry none (some S) none
      = some [(drop5 startProp, formatDate S)] := by
  constructor
  · unfold dropPersistWrites handleEventDrop
    dsimp only
    rw [updateEntryDates_both hs he]
  · unfold dropPersistWrites handleEventDrop
    dsimp only
    rw [updateEntryDates_start_only hs he]

theorem singleDay_drop_end_collapses_witness :
    dropPersistWrites "note.s" (some "note.e") (1 : Nat)
        (some ⟨⟨2025, 5, 2⟩, 0⟩) (some ⟨⟨2025, 5, 9⟩, 0⟩) none
      = some [("s", formatDate ⟨⟨2025, 5, 9⟩, 0⟩), ("e", formatDate ⟨⟨2025, 5, 9⟩, 0⟩)] :=
  (singleDay_drop_end_collapses (1 : Nat) "note.s" "note.e" (by decide) (by decide)
    ⟨⟨2025, 5, 2⟩, 0⟩ ⟨⟨2025, 5, 9⟩, 0⟩).1

/-- JavaScript `Number(string)` on a plain decimal literal (optional sign,
digits, optional fractional part; the empty string converts to `0`), with
`none` standing for `NaN`.  Modelled on the runtime the source relies on in
`getOverlayOpacity`; exotic forms (whitespace padding, exponents, hex) are
outside the configuration values this view produces. -/
def parseUnsigned (cs : List Char) : Option ℚ :=
  match splitOnChar '.' cs with
  | [i] =>
    if !i.isEmpty && i.all isDigitC then some ((digitsVal i : ℚ)) else none
  | [i, f] =>
    if (!i.isEmpty || !f.isEmpty) && i.all isDigitC && f.all isDigitC then
      some ((digitsVal i : ℚ) + (digitsVal f : ℚ) / (10 : ℚ) ^ f.length)
    else none
  | _ => none

/-- `Number(s)` (see `parseUnsigned`). -/
def jsNumberOfString (s : String) : Option ℚ :=
  match s.data with
  | [] => some 0
  | '-' :: rest => (parseUnsigned rest).map (fun q => -q)
  | '+' :: rest => parseUnsigned rest
  | l => parseUnsigned l

/-- A raw configuration value as `config.get` returns it: a number, a
string, or something else (`undefined`, objects, booleans). -/
inductive ConfigVal where
  | num (x : ℚ)
  | str (s : String)
  | other
deriving DecidableEq

/-- `getOverlayOpacity` of both `CalendarView` and `LinearView` (the two
classes contain the identical function): coerce the raw value to a number,
fall back to `0.6` on failure, otherwise clamp into `[0, 100]` and divide
by `100`. -/
def getOverlayOpacity (v : ConfigVal) : ℚ :=
  let numericValue : Option ℚ :=
    match v with
    | .num x => some x
    | .str s => jsNumberOfString s
    | .other => none
  match numericValue with
  | none => 6 / 10
  | some x => (max 0 (min 100 x)) / 100

theorem clamp_div_bounds (x : ℚ) :
    0 ≤ (max 0 (min 100 x)) / 100 ∧ (max 0 (min 100 x)) / 100 ≤ 1 := by
  constructor
  · apply div_nonneg (le_max_left 0 _)
    norm_num
  · rw [div_le_one (by norm_num)]
    exact max_le (by norm_num) (min_le_left _ _)

/-- C6: the overlay-opacity normalization accepts the numeric string `"70"`
as `0.7`, falls back to `0.6` on `"abc"`, clamps every numeric or
numeric-string input into `[0, 100]` before dividing by `100`, and always
lands in `[0, 1]`. -/
theorem overlayOpacity_spec :
    getOverlayOpacity (.str "70") = 7 / 10
    ∧ getOverlayOpacity (.str "abc") = 6 / 10
    ∧ (∀ x : ℚ, getOverlayOpacity (.num x) = (max 0 (min 100 x)) / 100)
    ∧ (∀ (s : String) (x : ℚ), jsNumberOfString s = some x →
        getOverlayOpacity (.str s) = (max 0 (min 100 x)) / 100)
    ∧ (∀ v, 0 ≤ getOverlayOpacity v ∧ getOverlayOpacity v ≤ 1) := by
  refine ⟨?_, rfl, fun x => rfl, ?_, ?_⟩
  · have h1 : getOverlayOpacity (.str "70") =
        (max 0 (min 100 ((70 : Nat) : ℚ))) / 100 := rfl
    rw [h1, Nat.cast_ofNat]
    rw [min_eq_right (by norm_num : (70 : ℚ) ≤ 100),
      max_eq_right (by norm_num : (0 : ℚ) ≤ 70)]
    norm_num
  · intro s x h
    simp [getOverlayOpacity, h]
  · intro v
    rcases v with x | s | _
    · exact clamp_div_bounds x
    · unfold getOverlayOpacity
      cases hn : jsNumberOfString s with
      | none => simp only [hn]; norm_num
      | some x => simp only [hn]; exact clamp_div_bounds x
    · unfold getOverlayOpacity
      norm_num

theorem overlayOpacity_spec_witness :
    jsNumberOfString "85" = some ((85 : Nat) : ℚ)
    ∧ getOverlayOpacity (.str "85") = (max 0 (min 100 ((85 : Nat) : ℚ))) / 100 :=
  ⟨rfl, overlayOpacity_spec.2.2.2.1 "85" ((85 : Nat) : ℚ) rfl⟩

/-- Days since 1970-01-01 of a Gregorian calendar date (1-based month),
the arithmetic underlying `new Date(y, m, d).getDay()`. -/
def daysFromCivil (y : Int) (m1 : Nat) (d : Nat) : Int :=
  let y2 : Int := if m1 ≤ 2 then y - 1 else y
  let era : Int := Int.fdiv y2 400
  let yoe : Int := y2 - era * 400
  let mp : Int := if 2 < m1 then (m1 : Int) - 3 else (m1 : Int) + 9
  let doy : Int := Int.fdiv (153 * mp + 2) 5 + (d : Int) - 1
  let doe : Int := yoe * 365 + Int.fdiv yoe 4 - Int.fdiv yoe 100 + doy
  era * 146097 + doe - 719468

/-- `new Date(y, m, d).getDay()` with zero-based month: weekday with
Sunday = 0 (1970-01-01 was a Thursday, weekday 4). -/
def dayOfWeek (y : Int) (m : Nat) (d : Nat) : Nat :=
  ((daysFromCivil y (m + 1) d + 4) % 7).toNat

/-- Per-month metadata of `renderAlignedYear`: days in the month, weekday of
its first day, and `Math.ceil((firstWeekday + days) / 7) * 7` total slots. -/
structure MonthMeta where
  days : Nat
  firstWeekday : Nat
  totalSlots : Nat
deriving DecidableEq, Repr

def monthMeta (y : Int) (m : Nat) : MonthMeta :=
  let days := daysInMonth y m
  let firstWeekday := dayOfWeek y m 1
  { days := days, firstWeekday := firstWeekday,
    totalSlots := ((firstWeekday + days + 6) / 7) * 7 }

/-- The `monthSlots` array of `renderAlignedYear`: one metadata record per
month of the year. -/
def monthSlots (y : Int) : List MonthMeta := (List.range 12).map (monthMeta y)

/-- `monthSlots.reduce((max, m) => Math.max(max, m.totalSlots), 0)`. -/
def maxSlots (y : Int) : Nat :=
  (monthSlots y).foldl (fun mx meta => max mx meta.totalSlots) 0

/-- A rendered slot of an aligned month row: out-of-month padding, or a day
cell with its (possibly out-of-range) day number and validity. -/
inductive Slot where
  | pad : Slot
  | cell (dayNum : Int) (valid : Bool) : Slot
deriving DecidableEq, Repr

/-- One month row of `renderAlignedYear`: `maxSlots` slots; indexes at or
beyond the month's own `totalSlots` render as out-of-month padding, the
rest as day cells numbered `idx - firstWeekday + 1`, valid when the number
falls inside the month. -/
def alignedRow (y : Int) (m : Nat) : List Slot :=
  let meta := monthMeta y m
  (List.range (maxSlots y)).map (fun idx =>
    if meta.totalSlots ≤ idx then Slot.pad
    else
      let dayNum : Int := (idx : Int) - (meta.firstWeekday : Int) + 1
      Slot.cell dayNum (decide (1 ≤ dayNum ∧ dayNum ≤ (meta.days : Int))))

theorem foldl_max_ge_acc :
    ∀ (l : List MonthMeta) (acc : Nat),
      acc ≤ l.foldl (fun mx mt => max mx mt.totalSlots) acc := by
  intro l
  induction l with
  | nil => intro acc; exact le_refl acc
  | cons x t ih =>
    intro acc
    rw [List.foldl_cons]
    exact le_trans (le_max_left acc x.totalSlots) (ih _)

theorem foldl_max_ge_mem :
    ∀ (l : List MonthMeta) (acc : Nat) (mt : MonthMeta), mt ∈ l →
      mt.totalSlots ≤ l.foldl (fun mx mt2 => max mx mt2.totalSlots) acc := by
  intro l
  induction l with
  | nil => intro acc mt h; simp at h
  | cons x t ih =>
    intro acc mt h
    rw [List.foldl_cons]
    rcases List.mem_cons.mp h with rfl | h2
    · exact le_trans (le_max_right acc mt.totalSlots) (foldl_max_ge_acc t _)
    · exact ih _ mt h2

theorem foldl_max_attained :
    ∀ (l : List MonthMeta) (acc : Nat),
      l.foldl (fun mx mt => max mx mt.totalSlots) acc = acc
      ∨ ∃ mt ∈ l, l.foldl (fun mx mt2 => max mx mt2.totalSlots) acc = mt.totalSlots := by
  intro l
  induction l with
  | nil => intro acc; exact Or.inl rfl
  | cons x t ih =>
    intro acc
    rw [List.foldl_cons]
    rcases ih (max acc x.totalSlots) with h | ⟨mt, hmem, hval⟩
    · rcases max_choice acc x.totalSlots with h2 | h2
      · exact Or.inl (h.trans h2)
      · exact Or.inr ⟨x, List.mem_cons_self x t, h.trans h2⟩
    · exact Or.inr ⟨mt, List.mem_cons_of_mem x hmem, hval⟩

theorem getD_map_range_slot (f : Nat → Slot) {n i : Nat} (h : i < n) :
    ((List.range n).map f).getD i Slot.pad = f i := by
  rw [List.getD_eq_getElem?_getD, List.getElem?_map, List.getElem?_range h]
  rfl

/-- C7: every month of the weekday-aligned year gets the smallest multiple
of seven at least `firstWeekday + daysInMonth` as its own slot count, all
twelve rows are rendered with the shared `maxSlots` (the maximum of the
twelve counts, attained by one of them), and the slots past a month's own
count are out-of-month padding. -/
theorem alignedYear_layout (y : Int) :
    ∀ m, m < 12 →
      ((monthMeta y m).totalSlots % 7 = 0
        ∧ (monthMeta y m).firstWeekday + (monthMeta y m).days ≤ (monthMeta y m).totalSlots
        ∧ (∀ k, k % 7 = 0 →
            (monthMeta y m).firstWeekday + (monthMeta y m).days ≤ k →
            (monthMeta y m).totalSlots ≤ k))
      ∧ (alignedRow y m).length = maxSlots y
      ∧ (monthMeta y m).totalSlots ≤ maxSlots y
      ∧ (∃ m2, m2 < 12 ∧ (monthMeta y m2).totalSlots = maxSlots y)
      ∧ (∀ idx ∈ List.range (maxSlots y), (monthMeta y m).totalSlots ≤ idx →
          (alignedRow y m).getD idx Slot.pad = Slot.pad) := by
  intro m hm
  have hmem : monthMeta y m ∈ monthSlots y :=
    List.mem_map.mpr ⟨m, List.mem_range.mpr hm, rfl⟩
  refine ⟨⟨?_, ?_, ?_⟩, ?_, ?_, ?_, ?_⟩
  · simp only [monthMeta]
    omega
  · simp only [monthMeta]
    omega
  · intro k hk7 hge
    simp only [monthMeta] at hge
    simp only [monthMeta]
    omega
  · simp only [alignedRow, List.length_map, List.length_range]
  · exact foldl_max_ge_mem (monthSlots y) 0 _ hmem
  · rcases foldl_max_attained (monthSlots y) 0 with h | ⟨mt, hmtm, hval⟩
    · exfalso
      have h1 := foldl_max_ge_mem (monthSlots y) 0 _ hmem
      have hb := daysInMonth_bounds y m
      simp only [monthMeta] at h1
      omega
    · obtain ⟨m2, hm2, hval2⟩ := List.mem_map.mp hmtm
      refine ⟨m2, List.mem_range.mp hm2, ?_⟩
      rw [hval2, ← hval]
      rfl
  · intro idx hidx hts
    have hlt := List.mem_range.mp hidx
    simp only [alignedRow]
    rw [getD_map_range_slot _ hlt, if_pos hts]

theorem alignedYear_layout_witness :
    (monthMeta 2025 2).totalSlots % 7 = 0
    ∧ (monthMeta 2025 2).totalSlots = 42
    ∧ maxSlots 2025 = 42 := by
  have h := alignedYear_layout 2025 2 (by norm_num)
  exact ⟨h.1.1, by decide, by decide⟩

/-- `LinearView.loadConfig`: the effective highlight-weekends flag is the
configured one only when align-weekdays is on, and `false` otherwise. -/
def effectiveHighlightWeekends (alignWeekdays configHW : Bool) : Bool :=
  if alignWeekdays then configHW else false

/-- Guard of the per-day weekend computation in `renderCell` of
`LinearReactView`: `highlightWeekends && !alignWeekdays && valid`. -/
def weekendCheckRuns (highlightWeekends alignWeekdays valid : Bool) : Bool :=
  highlightWeekends && !alignWeekdays && valid

/-- The `isWeekend` value of `renderCell`: the weekday of the cell is
computed and tested against Sunday/Saturday only when the guard holds. -/
def isWeekendCell (highlightWeekends alignWeekdays valid : Bool)
    (y : Int) (m d : Nat) : Bool :=
  if weekendCheckRuns highlightWeekends alignWeekdays valid then
    (dayOfWeek y m d == 0 || dayOfWeek y m d == 6)
  else false

/-- C8: with the effective flag computed by `loadConfig`, the per-day
weekend computation can only run when both configuration flags are on, and
whenever align-weekdays is off the effective flag is forced to `false` and
no day cell is ever marked as a weekend. -/
theorem weekendHighlight_coupling (aw chw valid : Bool) (y : Int) (m d : Nat) :
    (weekendCheckRuns (effectiveHighlightWeekends aw chw) aw valid = true →
      aw = true ∧ chw = true)
    ∧ (aw = false →
        effectiveHighlightWeekends aw chw = false
        ∧ isWeekendCell (effectiveHighlightWeekends aw chw) aw valid y m d = false) := by
  cases aw <;> cases chw <;> cases valid <;>
    simp [effectiveHighlightWeekends, weekendCheckRuns, isWeekendCell]

theorem weekendHighlight_coupling_witness :
    effectiveHighlightWeekends false true = false
    ∧ isWeekendCell (effectiveHighlightWeekends false true) false true 2025 2 1 = false :=
  (weekendHighlight_coupling false true true 2025 2 1).2 rfl
